import Mathlib

/-!
Shallow embedding of `src/main.py` (UML-like model compiler plus config
delta/patch engine) and proofs about it.

Python dictionaries are modelled as insertion-ordered association lists
(`List (String × _)`) with first-match lookup; Python's in-place value
update keeps the key's position, which `dictInsert` reproduces.  The
unbounded recursion of `BuilderXML.add_nested` is modelled with an explicit
fuel argument: exhausting the fuel corresponds to the Python recursion
never terminating (`RecursionError`), and the Python exceptions (`KeyError`
on a missing class, the missing-root `Exception`) become constructors of
`BuildError`.
-/

namespace Impulse

/-- Configuration: a flat string-keyed mapping, as an insertion-ordered
association list (the model of a Python `dict`). -/
abbrev Config (α : Type) := List (String × α)

/-- First-match association lookup; `cfgLookup c k = some v` models
`c[k] == v` and `(cfgLookup c k).isSome` models `k in c`. -/
def cfgLookup {α : Type} : Config α → String → Option α
  | [], _ => none
  | (k', v) :: rest, k => if k' = k then some v else cfgLookup rest k

/-- A well-formed Python dict has no duplicate keys. -/
def NodupKeys {α : Type} (c : Config α) : Prop := (c.map Prod.fst).Nodup

/-- Entry of the `additions` list of a delta: the dict with keys
`key` and `value` built in `Delta.from_configs`. -/
structure AddEntry (α : Type) where
  key : String
  value : α
deriving DecidableEq, Repr

/-- Entry of the `updates` list of a delta: the dict with keys `key`,
`from` and `to` built in `Delta.from_configs` (`from` is spelled
`fromVal` and `to` is spelled `toVal` here). -/
structure UpdEntry (α : Type) where
  key : String
  fromVal : α
  toVal : α
deriving DecidableEq, Repr

/-- The class `Delta` of `src/main.py`: three ordered lists. -/
structure Delta (α : Type) where
  additions : List (AddEntry α)
  deletions : List String
  updates : List (UpdEntry α)
deriving DecidableEq, Repr

/-- The single loop over `new_config` in `Delta.from_configs`, producing
the `additions` and `updates` lists in iteration order of `new_config`. -/
def diffNew {α : Type} [DecidableEq α] (old : Config α) :
    Config α → List (AddEntry α) × List (UpdEntry α)
  | [] => ([], [])
  | (k, v) :: rest =>
    let tail := diffNew old rest
    match cfgLookup old k with
    | none => (⟨k, v⟩ :: tail.1, tail.2)
    | some v0 => if v0 ≠ v then (tail.1, ⟨k, v0, v⟩ :: tail.2) else tail

/-- The loop over `old_config` in `Delta.from_configs`, producing the
`deletions` list in iteration order of `old_config`. -/
def diffDeletions {α : Type} (new : Config α) : Config α → List String
  | [] => []
  | (k, _) :: rest =>
    if (cfgLookup new k).isSome then diffDeletions new rest
    else k :: diffDeletions new rest

/-- `Delta.from_configs` of `src/main.py`. -/
def Delta.from_configs {α : Type} [DecidableEq α] (old new : Config α) : Delta α :=
  let pair := diffNew old new
  { additions := pair.1, deletions := diffDeletions new old, updates := pair.2 }

/-- Python `result.pop(key, None)`: remove the key if present, silently
do nothing otherwise. -/
def dictPop {α : Type} (c : Config α) (k : String) : Config α :=
  c.filter (fun kv => kv.1 ≠ k)

/-- Python `result[key] = value`: replace the value in place if the key is
present (keeping its position), append at the end otherwise. -/
def dictInsert {α : Type} (c : Config α) (k : String) (v : α) : Config α :=
  if (cfgLookup c k).isSome then
    c.map (fun kv => if kv.1 = k then (k, v) else kv)
  else c ++ [(k, v)]

/-- `ConfigPatcher.apply` of `src/main.py`: copy the base config, then pop
every deletion, then assign every update, then assign every addition. -/
def ConfigPatcher.apply {α : Type} (base : Config α) (d : Delta α) : Config α :=
  let afterDel := d.deletions.foldl dictPop base
  let afterUpd := d.updates.foldl (fun r u => dictInsert r u.key u.toVal) afterDel
  d.additions.foldl (fun r a => dictInsert r a.key a.value) afterUpd

/-- The class `ClassElement` of `src/main.py`; `attributes` is the
insertion-ordered dict from attribute name to type string. -/
structure ClassElement where
  name : String
  is_root : Bool
  documentation : String
  attributes : List (String × String)
deriving DecidableEq, Repr

/-- The class `Aggregation` of `src/main.py`: a directed edge. -/
structure Aggregation where
  source : String
  target : String
  sourceMultiplicity : String
  targetMultiplicity : String
deriving DecidableEq, Repr

/-- Names present in the repository's class dict (its key set, in order). -/
def classNames (classes : List (String × ClassElement)) : List String :=
  classes.map Prod.fst

/-- Python `self.classes[name]`: dict lookup; `none` models `KeyError`. -/
def lookupClass (classes : List (String × ClassElement)) (k : String) :
    Option ClassElement :=
  (classes.find? (fun kv => kv.1 = k)).map Prod.snd

/-- An `xml.etree.ElementTree` element as built by `BuilderXML`: a tag,
optional text, and ordered children.  Elements created for attributes
carry `some` text (the attribute's type string); elements created for
classes carry `none`. -/
inductive XmlTree where
  | elem (tag : String) (txt : Option String) (children : List XmlTree)

/-- Failure modes of `BuilderXML.build`: the explicit missing-root
exception, Python's `KeyError` on `self.classes[aggregation.source]`, and
exhaustion of the recursion fuel (modelling non-termination /
`RecursionError` of the unguarded recursion). -/
inductive BuildError where
  | noRoot
  | keyError
  | fuelExhausted
deriving DecidableEq, Repr

/-- `BuilderXML.add_attributes`: one child element per attribute, tag the
attribute name, text the attribute's type string. -/
def attrsToXml (attrs : List (String × String)) : List XmlTree :=
  attrs.map (fun kv => XmlTree.elem kv.1 (some kv.2) [])

/-- The loop body of `BuilderXML.add_nested`: iterate the aggregation list,
and for every aggregation whose target is the given class name, look the
source class up, emit its element (attributes first), and recurse into it
through `descend`. -/
def addNestedList (classes : List (String × ClassElement)) :
    (String → Except BuildError (List XmlTree)) →
    List Aggregation → String → Except BuildError (List XmlTree)
  | _, [], _ => .ok []
  | descend, a :: rest, tgt =>
    if a.target = tgt then
      match lookupClass classes a.source with
      | none => .error .keyError
      | some ce =>
        match descend ce.name with
        | .error e => .error e
        | .ok sub =>
          match addNestedList classes descend rest tgt with
          | .error e => .error e
          | .ok restTs =>
            .ok (XmlTree.elem ce.name none (attrsToXml ce.attributes ++ sub) :: restTs)
    else addNestedList classes descend rest tgt

/-- `BuilderXML.add_nested` with explicit fuel: each call consumes one unit
of fuel (one stack frame); `fuelExhausted` models the unbounded recursion
overflowing. -/
def addNested (classes : List (String × ClassElement)) (aggs : List Aggregation) :
    Nat → String → Except BuildError (List XmlTree)
  | 0, _ => .error .fuelExhausted
  | fuel + 1, tgt => addNestedList classes (addNested classes aggs fuel) aggs tgt

/-- `BuilderXML.build`: take the first class with `is_root` true (the
`for`/`else` raises when none exists), emit its element with attribute
children, and append its nested children. -/
def buildXML (fuel : Nat) (classes : List (String × ClassElement))
    (aggs : List Aggregation) : Except BuildError XmlTree :=
  match classes.find? (fun kv => kv.2.is_root) with
  | none => .error .noRoot
  | some rkv =>
    match addNested classes aggs fuel rkv.2.name with
    | .error e => .error e
    | .ok sub =>
      .ok (XmlTree.elem rkv.2.name none (attrsToXml rkv.2.attributes ++ sub))

mutual

/-- Tags of the class elements of a rendered tree (elements carrying no
text; elements produced for attributes carry text and are skipped). -/
def classTags : XmlTree → List String
  | .elem tag none children => tag :: classTagsList children
  | .elem _ (some _) children => classTagsList children

/-- Tags of the class elements of a list of rendered trees. -/
def classTagsList : List XmlTree → List String
  | [] => []
  | t :: ts => classTags t ++ classTagsList ts

end

/-- Reachability along aggregation edges as the Tree Compiler walks them:
the root name is reachable, and the source of an edge whose target is
reachable is reachable. -/
inductive Reaches (aggs : List Aggregation) (r : String) : String → Prop
  | root : Reaches aggs r r
  | step {t : String} (a : Aggregation) :
      Reaches aggs r t → a ∈ aggs → a.target = t → Reaches aggs r a.source

/-- A descending chain of the containment recursion: `EChain aggs x l`
says that starting from class name `x`, the names in `l` are successive
sources of edges targeting the previous name. -/
def EChain (aggs : List Aggregation) : String → List String → Prop
  | _, [] => True
  | x, s :: l => (∃ a ∈ aggs, a.source = s ∧ a.target = x) ∧ EChain aggs s l

/-- No class is its own descendant through aggregation edges. -/
def Acyclic (aggs : List Aggregation) : Prop :=
  ∀ x l, EChain aggs x l → x ∉ l

/-- Every descending chain of the containment recursion starting at `tgt`
has length at most `n`. -/
def BndF (aggs : List Aggregation) : Nat → String → Prop
  | 0, tgt => ∀ a ∈ aggs, a.target ≠ tgt
  | n + 1, tgt => ∀ a ∈ aggs, a.target = tgt → BndF aggs n a.source

/-- A subtree occurrence: `Subtree c t` says `c` is `t` itself or occurs
(recursively) among the children of `t`. -/
inductive Subtree : XmlTree → XmlTree → Prop
  | refl (t : XmlTree) : Subtree t t
  | child {c : XmlTree} {tag : String} {txt : Option String}
      {ch : List XmlTree} {t : XmlTree} :
      Subtree (XmlTree.elem tag txt ch) t → c ∈ ch → Subtree c t

/-- Left-to-right, non-overlapping split of a character list at
occurrences of the two-character separator `c1 c2`; this is Python's
`s.split(sep)` for a two-character `sep`, restricted to the character
level (`[s]` when the separator does not occur). -/
def splitOnSep (c1 c2 : Char) : List Char → List Char → List (List Char)
  | [], acc => [acc.reverse]
  | a :: b :: rest, acc =>
    if a = c1 ∧ b = c2 then acc.reverse :: splitOnSep c1 c2 rest []
    else splitOnSep c1 c2 (b :: rest) (a :: acc)
  | [a], acc => [(a :: acc).reverse]

/-- The multiplicity parsing of `BuilderJSON._get_multiplicities`: if the
string contains the substring `..` it is split there (`min_val, max_val =
s.split(sep)` raises `ValueError`, modelled as `none`, unless the split has
exactly two parts), otherwise min and max are both the whole string. -/
def parseMultiplicity (s : String) : Option (String × String) :=
  match splitOnSep '.' '.' s.data [] with
  | [single] => some (String.mk single, String.mk single)
  | [mn, mx] => some (String.mk mn, String.mk mx)
  | _ => none

/-- Generic association-list lookup used for the two auxiliary dicts of
`BuilderJSON` (`k in m` and `m[k]`). -/
def assocFind {β : Type} (m : List (String × β)) (k : String) : Option β :=
  (m.find? (fun kv => kv.1 = k)).map Prod.snd

/-- Python dict assignment `m[k] = v` on an auxiliary dict: replace in
place when the key exists, append otherwise. -/
def assocUpdate {β : Type} (m : List (String × β)) (k : String) (v : β) :
    List (String × β) :=
  if (assocFind m k).isSome then
    m.map (fun kv => if kv.1 = k then (k, v) else kv)
  else m ++ [(k, v)]

/-- One step of `BuilderJSON._get_nested_classes`: create the target's
entry when absent, then append the source to it (in place). -/
def addNestedEntry (m : List (String × List String)) (target source : String) :
    List (String × List String) :=
  match assocFind m target with
  | some l => m.map (fun kv => if kv.1 = target then (target, l ++ [source]) else kv)
  | none => m ++ [(target, [source])]

/-- `BuilderJSON._get_nested_classes`: fold over the aggregations in
order, appending each source to its target's list. -/
def getNestedClasses (m : List (String × List String)) :
    List Aggregation → List (String × List String)
  | [] => m
  | a :: rest => getNestedClasses (addNestedEntry m a.target a.source) rest

/-- `BuilderJSON._get_multiplicities`: fold over the aggregations in
order, parsing each `sourceMultiplicity` and assigning the result under
the aggregation's source (last write wins); `none` models the
`ValueError` escaping when a split does not have exactly two parts. -/
def getMultiplicities (m : List (String × (String × String))) :
    List Aggregation → Option (List (String × (String × String)))
  | [] => some m
  | a :: rest =>
    match parseMultiplicity a.sourceMultiplicity with
    | none => none
    | some p => getMultiplicities (assocUpdate m a.source p) rest

/-- One entry of a descriptor's `parameters` list. -/
structure Param where
  name : String
  type : String
deriving DecidableEq, Repr

/-- One per-class descriptor of `BuilderJSON`; `minmax` is `some` exactly
when the Python dict carries the keys `min` and `max`. -/
structure ClassDict where
  className : String
  documentation : String
  isRoot : Bool
  minmax : Option (String × String)
  parameters : List Param
deriving DecidableEq, Repr

/-- `BuilderJSON._build_class_dict`. -/
def buildClassDict (className : String) (ce : ClassElement)
    (nested : List (String × List String))
    (mults : List (String × (String × String))) : ClassDict :=
  { className := className
    documentation := ce.documentation
    isRoot := ce.is_root
    minmax := assocFind mults className
    parameters :=
      ce.attributes.map (fun kv => Param.mk kv.1 kv.2) ++
      match assocFind nested className with
      | some srcs => srcs.map (fun s => Param.mk s "class")
      | none => [] }

/-- `BuilderJSON.build`: derive the nested and multiplicity dicts, then
one descriptor per class in repository iteration order. -/
def buildJSON (classes : List (String × ClassElement)) (aggs : List Aggregation) :
    Option (List ClassDict) :=
  match getMultiplicities [] aggs with
  | none => none
  | some mults =>
    let nested := getNestedClasses [] aggs
    some (classes.map (fun kv => buildClassDict kv.1 kv.2 nested mults))

/-- Specification-side description of one descriptor, written after the
words of the spec: class name, documentation and root flag; min and max
from the last aggregation having this class as source (absent when there
is none); parameters are the attributes in declared order followed by one
class-typed entry per aggregation targeting this class, in edge order. -/
def expectedDescriptor (aggs : List Aggregation) (kv : String × ClassElement) :
    ClassDict :=
  { className := kv.1
    documentation := kv.2.documentation
    isRoot := kv.2.is_root
    minmax :=
      match (aggs.filter (fun a => a.source = kv.1)).getLast? with
      | some a => parseMultiplicity a.sourceMultiplicity
      | none => none
    parameters :=
      kv.2.attributes.map (fun p => Param.mk p.1 p.2) ++
      (aggs.filter (fun a => a.target = kv.1)).map (fun a => Param.mk a.source "class") }

/-- Value of the last entry of `l` whose key is `k`, if any (later
entries override earlier ones, as iterated dict assignment does). -/
def lastVal {α β : Type} (key : β → String) (val : β → α) (l : List β) (k : String) :
    Option α :=
  l.foldl (fun acc e => if key e = k then some (val e) else acc) none

/-- Option fallback used to state lookup characterizations. -/
def orElseO {α : Type} (a b : Option α) : Option α :=
  match a with
  | some v => some v
  | none => b

section DeltaLemmas

variable {α : Type}

theorem cfgLookup_nil (k : String) : cfgLookup ([] : Config α) k = none := rfl

theorem cfgLookup_cons (k0 : String) (v0 : α) (rest : Config α) (k : String) :
    cfgLookup ((k0, v0) :: rest) k = if k0 = k then some v0 else cfgLookup rest k := rfl

theorem orElseO_none_left {a : Option α} : orElseO none a = a := rfl

theorem orElseO_none_right {a : Option α} : orElseO a none = a := by
  cases a <;> rfl

theorem orElseO_some {v : α} {a : Option α} : orElseO (some v) a = some v := rfl

theorem cfgLookup_isSome_iff (c : Config α) (k : String) :
    (cfgLookup c k).isSome ↔ k ∈ c.map Prod.fst := by
  induction c with
  | nil => simp [cfgLookup_nil]
  | cons kv rest ih =>
    obtain ⟨k', v⟩ := kv
    by_cases h : k' = k
    · subst h
      simp [cfgLookup_cons]
    · have h' : k ≠ k' := fun hc => h hc.symm
      simp [cfgLookup_cons, h, h', ih]

theorem cfgLookup_append (c1 c2 : Config α) (k : String) :
    cfgLookup (c1 ++ c2) k = orElseO (cfgLookup c1 k) (cfgLookup c2 k) := by
  induction c1 with
  | nil => simp [cfgLookup_nil, orElseO_none_left]
  | cons kv rest ih =>
    obtain ⟨k0, v0⟩ := kv
    by_cases h : k0 = k <;> simp [cfgLookup_cons, h, ih, orElseO_some]

theorem cfgLookup_map_replace_ne (c : Config α) (k k' : String) (v : α)
    (h : k ≠ k') :
    cfgLookup (c.map (fun kv => if kv.1 = k then (k, v) else kv)) k' =
      cfgLookup c k' := by
  induction c with
  | nil => rfl
  | cons kv rest ih =>
    obtain ⟨k0, v0⟩ := kv
    rw [List.map_cons]
    by_cases hk : k0 = k
    · have hk0 : ¬k0 = k' := fun hc => h (hk ▸ hc)
      simp [hk, cfgLookup_cons, h, hk0, ih]
    · simp [hk, cfgLookup_cons, ih]

theorem cfgLookup_map_replace_self (c : Config α) (k : String) (v : α) :
    cfgLookup (c.map (fun kv => if kv.1 = k then (k, v) else kv)) k =
      if (cfgLookup c k).isSome then some v else none := by
  induction c with
  | nil => rfl
  | cons kv rest ih =>
    obtain ⟨k0, v0⟩ := kv
    rw [List.map_cons]
    by_cases hk : k0 = k
    · simp [hk, cfgLookup_cons]
    · simp [hk, cfgLookup_cons, ih]

theorem cfgLookup_dictInsert (c : Config α) (k : String) (v : α) (k' : String) :
    cfgLookup (dictInsert c k v) k' = if k = k' then some v else cfgLookup c k' := by
  unfold dictInsert
  by_cases hh : (cfgLookup c k).isSome
  · rw [if_pos hh]
    by_cases hk : k = k'
    · subst hk
      rw [if_pos rfl, cfgLookup_map_replace_self, if_pos hh]
    · rw [if_neg hk, cfgLookup_map_replace_ne c k k' v hk]
  · rw [if_neg hh, cfgLookup_append]
    by_cases hk : k = k'
    · subst hk
      have hc : cfgLookup c k = none := Option.not_isSome_iff_eq_none.mp hh
      rw [hc, if_pos rfl, orElseO_none_left, cfgLookup_cons, if_pos rfl]
    · rw [if_neg hk, cfgLookup_cons, if_neg hk, cfgLookup_nil, orElseO_none_right]

theorem cfgLookup_dictPop (c : Config α) (k k' : String) :
    cfgLookup (dictPop c k) k' = if k' = k then none else cfgLookup c k' := by
  induction c with
  | nil => simp [dictPop, cfgLookup_nil]
  | cons kv rest ih =>
    obtain ⟨k0, v0⟩ := kv
    unfold dictPop at ih ⊢
    rw [List.filter_cons]
    by_cases hk : k0 = k
    · subst hk
      rw [if_neg (by simp), ih, cfgLookup_cons]
      by_cases hk' : k' = k0
      · simp [hk']
      · have hne : ¬k0 = k' := fun hc => hk' hc.symm
        simp [hk', hne]
    · rw [if_pos (by simp [hk]), cfgLookup_cons, ih, cfgLookup_cons]
      by_cases hk' : k' = k
      · have hne : ¬k0 = k' := fun hc => hk (hk' ▸ hc)
        simp [hk', hne, hk]
      · simp [hk']

theorem cfgLookup_foldl_pop (ds : List String) (c : Config α) (k : String) :
    cfgLookup (ds.foldl dictPop c) k = if k ∈ ds then none else cfgLookup c k := by
  induction ds generalizing c with
  | nil => simp
  | cons d ds ih =>
    rw [List.foldl_cons, ih, cfgLookup_dictPop]
    by_cases h1 : k ∈ ds <;> by_cases h2 : k = d <;> simp [h1, h2]

theorem lastVal_init {β : Type} (key : β → String) (val : β → α) (l : List β)
    (k : String) (a : Option α) :
    l.foldl (fun acc e => if key e = k then some (val e) else acc) a =
      orElseO (lastVal key val l k) a := by
  induction l generalizing a with
  | nil =>
    simp [lastVal, orElseO]
  | cons e l ih =>
    rw [List.foldl_cons, ih]
    show _ = orElseO (List.foldl _ _ (e :: l)) a
    rw [List.foldl_cons, ih]
    by_cases hk : key e = k <;>
      cases hv : lastVal key val l k <;> simp [hk, hv, orElseO]

theorem lastVal_cons {β : Type} (key : β → String) (val : β → α) (e : β)
    (l : List β) (k : String) :
    lastVal key val (e :: l) k =
      orElseO (lastVal key val l k) (if key e = k then some (val e) else none) := by
  show List.foldl _ _ (e :: l) = _
  rw [List.foldl_cons, lastVal_init]

theorem cfgLookup_foldl_insert {β : Type} (key : β → String) (val : β → α)
    (l : List β) (c : Config α) (k : String) :
    cfgLookup (l.foldl (fun r e => dictInsert r (key e) (val e)) c) k =
      orElseO (lastVal key val l k) (cfgLookup c k) := by
  induction l generalizing c with
  | nil => simp [lastVal, orElseO]
  | cons e l ih =>
    rw [List.foldl_cons, ih, lastVal_cons, cfgLookup_dictInsert]
    by_cases hk : key e = k <;>
      cases hv : lastVal key val l k <;> simp [hk, hv, orElseO]

theorem apply_lookup (base : Config α) (d : Delta α) (k : String) :
    cfgLookup (ConfigPatcher.apply base d) k =
      orElseO (lastVal (fun a => a.key) (fun a => a.value) d.additions k)
        (orElseO (lastVal (fun u => u.key) (fun u => u.toVal) d.updates k)
          (if k ∈ d.deletions then none else cfgLookup base k)) := by
  unfold ConfigPatcher.apply
  rw [cfgLookup_foldl_insert, cfgLookup_foldl_insert, cfgLookup_foldl_pop]

theorem additions_eq [DecidableEq α] (old new : Config α) :
    (Delta.from_configs old new).additions =
      (new.filter (fun kv => (cfgLookup old kv.1).isNone)).map
        (fun kv => ⟨kv.1, kv.2⟩) := by
  show (diffNew old new).1 = _
  induction new with
  | nil => rfl
  | cons kv rest ih =>
    obtain ⟨k, v⟩ := kv
    rw [List.filter_cons]
    cases hl : cfgLookup old k with
    | none =>
      simp only [diffNew, hl]
      rw [if_pos (by simp [hl])]
      simp [ih]
    | some v0 =>
      rw [if_neg (by simp [hl])]
      by_cases hv : v0 = v <;> simp [diffNew, hl, hv, ih]

/-- The per-entry shape of an `updates` element: an entry whose key is
present in both configs with non-equal values yields an update record,
anything else yields nothing. -/
def updFun [DecidableEq α] (old : Config α) : String × α → Option (UpdEntry α) :=
  fun kv =>
    match cfgLookup old kv.1 with
    | none => none
    | some v0 => if v0 ≠ kv.2 then some ⟨kv.1, v0, kv.2⟩ else none

theorem updFun_app [DecidableEq α] (old : Config α) (k0 : String) (v : α) :
    updFun old (k0, v) =
      match cfgLookup old k0 with
      | none => none
      | some v0 => if v0 = v then none else some ⟨k0, v0, v⟩ := by
  unfold updFun
  dsimp only
  cases cfgLookup old k0 with
  | none => rfl
  | some v0 => by_cases hv : v0 = v <;> simp [hv]

theorem updates_eq [DecidableEq α] (old new : Config α) :
    (Delta.from_configs old new).updates = new.filterMap (updFun old) := by
  show (diffNew old new).2 = _
  induction new with
  | nil => rfl
  | cons kv rest ih =>
    obtain ⟨k, v⟩ := kv
    rw [List.filterMap_cons]
    cases hl : cfgLookup old k with
    | none => simp [diffNew, updFun, hl, ih]
    | some v0 => by_cases hv : v0 = v <;> simp [diffNew, updFun, hl, hv, ih]

theorem deletions_eq [DecidableEq α] (old new : Config α) :
    (Delta.from_configs old new).deletions =
      (old.filter (fun kv => (cfgLookup new kv.1).isNone)).map Prod.fst := by
  show diffDeletions new old = _
  induction old with
  | nil => rfl
  | cons kv rest ih =>
    obtain ⟨k, v⟩ := kv
    rw [List.filter_cons]
    cases hl : cfgLookup new k with
    | none =>
      rw [if_pos (by simp [hl])]
      simp [diffDeletions, hl, ih]
    | some v0 =>
      rw [if_neg (by simp [hl])]
      simp [diffDeletions, hl, ih]

theorem lastVal_map {β γ : Type} (f : γ → β) (key : β → String) (val : β → α)
    (l : List γ) (k : String) :
    lastVal key val (l.map f) k =
      lastVal (fun e => key (f e)) (fun e => val (f e)) l k := by
  show List.foldl _ _ _ = List.foldl _ _ _
  rw [List.foldl_map]

theorem lastVal_eq_none {β : Type} (key : β → String) (val : β → α) (l : List β)
    (k : String) (h : ∀ e ∈ l, key e ≠ k) : lastVal key val l k = none := by
  induction l with
  | nil => rfl
  | cons e l ih =>
    rw [lastVal_cons, ih (fun x hx => h x (List.mem_cons_of_mem e hx))]
    simp [h e (List.mem_cons_self e l), orElseO]

theorem lastVal_filter_key (q : String → Bool) (l : List (String × α)) (k : String) :
    lastVal Prod.fst Prod.snd (l.filter (fun kv => q kv.1)) k =
      if q k then lastVal Prod.fst Prod.snd l k else none := by
  induction l with
  | nil => simp [lastVal]
  | cons kv l ih =>
    obtain ⟨k0, v0⟩ := kv
    rw [List.filter_cons]
    by_cases hq : q k0
    · rw [if_pos (by simp [hq]), lastVal_cons, lastVal_cons, ih]
      by_cases hqk : q k
      · rw [if_pos hqk, if_pos hqk]
      · rw [if_neg hqk, if_neg hqk, orElseO_none_left]
        have hk : ¬(k0, v0).1 = k := by
          intro hc
          apply hqk
          rw [← hc]
          exact hq
        rw [if_neg hk]
    · rw [if_neg (by simp [hq]), lastVal_cons, ih]
      by_cases hqk : q k
      · rw [if_pos hqk, if_pos hqk]
        have hk : ¬(k0, v0).1 = k := by
          intro hc
          apply hq
          show q (k0, v0).1 = true
          rw [hc]
          exact hqk
        rw [if_neg hk, orElseO_none_right]
      · rw [if_neg hqk, if_neg hqk]

theorem lastVal_eq_cfgLookup (c : Config α) (k : String) (h : NodupKeys c) :
    lastVal Prod.fst Prod.snd c k = cfgLookup c k := by
  induction c with
  | nil => rfl
  | cons kv rest ih =>
    obtain ⟨k0, v0⟩ := kv
    obtain ⟨hnotin, hnd⟩ := List.nodup_cons.mp h
    rw [lastVal_cons, ih hnd, cfgLookup_cons]
    by_cases hk : k0 = k
    · subst hk
      have : cfgLookup rest k0 = none := by
        cases hv : cfgLookup rest k0 with
        | none => rfl
        | some v =>
          exact absurd ((cfgLookup_isSome_iff rest k0).mp (by simp [hv])) hnotin
      simp [this, orElseO]
    · rw [if_neg hk]
      simp only [hk, if_false]
      rw [orElseO_none_right]

theorem lastVal_additions [DecidableEq α] (old new : Config α) (k : String)
    (h : NodupKeys new) :
    lastVal (fun a => a.key) (fun a => a.value) (Delta.from_configs old new).additions k =
      if (cfgLookup old k).isNone then cfgLookup new k else none := by
  rw [additions_eq, lastVal_map]
  have : lastVal (fun e : String × α => (⟨e.1, e.2⟩ : AddEntry α).key)
      (fun e : String × α => (⟨e.1, e.2⟩ : AddEntry α).value)
      (new.filter (fun kv => (cfgLookup old kv.1).isNone)) k =
      lastVal Prod.fst Prod.snd (new.filter (fun kv => (cfgLookup old kv.1).isNone)) k := rfl
  rw [this, lastVal_filter_key (fun s => (cfgLookup old s).isNone), lastVal_eq_cfgLookup _ _ h]

theorem updates_key_mem [DecidableEq α] (old : Config α) (l : Config α)
    (u : UpdEntry α) (hu : u ∈ l.filterMap (updFun old)) :
    u.key ∈ l.map Prod.fst := by
  obtain ⟨kv, hkv, hg⟩ := List.mem_filterMap.mp hu
  obtain ⟨k0, v⟩ := kv
  rw [updFun_app] at hg
  have hkey : u.key = k0 := by
    cases hl : cfgLookup old k0 with
    | none => rw [hl] at hg; cases hg
    | some v0 =>
      rw [hl] at hg
      dsimp only at hg
      by_cases hv : v0 = v
      · rw [if_pos hv] at hg
        cases hg
      · rw [if_neg hv] at hg
        cases hg
        rfl
  rw [hkey]
  exact List.mem_map_of_mem Prod.fst hkv

theorem lastVal_updates [DecidableEq α] (old new : Config α) (k : String)
    (h : NodupKeys new) :
    lastVal (fun u => u.key) (fun u => u.toVal) (Delta.from_configs old new).updates k =
      match cfgLookup new k, cfgLookup old k with
      | some v, some v0 => if v0 = v then none else some v
      | _, _ => none := by
  rw [updates_eq]
  induction new with
  | nil => rfl
  | cons kv rest ih =>
    obtain ⟨k0, v⟩ := kv
    obtain ⟨hnotin, hnd⟩ := List.nodup_cons.mp h
    rw [cfgLookup_cons]
    by_cases hk : k0 = k
    · subst hk
      rw [if_pos rfl]
      have htail : lastVal (fun u => u.key) (fun u => u.toVal)
          (rest.filterMap (updFun old)) k0 = none := by
        apply lastVal_eq_none
        intro e he
        intro hc
        exact hnotin (hc ▸ updates_key_mem old rest e he)
      cases hl : cfgLookup old k0 with
      | none =>
        rw [List.filterMap_cons_none
          (show updFun old (k0, v) = none by rw [updFun_app, hl])]
        exact htail
      | some v0 =>
        by_cases hv : v0 = v
        · rw [List.filterMap_cons_none
            (show updFun old (k0, v) = none by rw [updFun_app, hl]; simp [hv])]
          rw [htail]
          simp [hv]
        · rw [List.filterMap_cons_some
            (show updFun old (k0, v) = some ⟨k0, v0, v⟩ by
              rw [updFun_app, hl]; simp [hv])]
          rw [lastVal_cons, htail, orElseO_none_left]
          simp [hv]
    · rw [if_neg hk]
      cases hl : cfgLookup old k0 with
      | none =>
        rw [List.filterMap_cons_none
          (show updFun old (k0, v) = none by rw [updFun_app, hl])]
        exact ih hnd
      | some v0 =>
        by_cases hv : v0 = v
        · rw [List.filterMap_cons_none
            (show updFun old (k0, v) = none by rw [updFun_app, hl]; simp [hv])]
          exact ih hnd
        · rw [List.filterMap_cons_some
            (show updFun old (k0, v) = some ⟨k0, v0, v⟩ by
              rw [updFun_app, hl]; simp [hv])]
          rw [lastVal_cons, ih hnd]
          have hke : ¬(⟨k0, v0, v⟩ : UpdEntry α).key = k := hk
          rw [if_neg hke, orElseO_none_right]

theorem mem_deletions_iff [DecidableEq α] (old new : Config α) (k : String) :
    k ∈ (Delta.from_configs old new).deletions ↔
      k ∈ old.map Prod.fst ∧ cfgLookup new k = none := by
  rw [deletions_eq]
  constructor
  · intro h
    obtain ⟨kv, hkv, hfst⟩ := List.mem_map.mp h
    obtain ⟨hmem, hflt⟩ := List.mem_filter.mp hkv
    refine ⟨hfst ▸ List.mem_map_of_mem Prod.fst hmem, ?_⟩
    rw [← hfst]
    exact Option.isNone_iff_eq_none.mp (by simpa using hflt)
  · rintro ⟨hmem, hnone⟩
    obtain ⟨kv, hkv, hfst⟩ := List.mem_map.mp hmem
    refine List.mem_map.mpr ⟨kv, List.mem_filter.mpr ⟨hkv, ?_⟩, hfst⟩
    simp [hfst, hnone]

theorem roundtrip_lookup [DecidableEq α] (old new : Config α)
    (h2 : NodupKeys new) (k : String) :
    cfgLookup (ConfigPatcher.apply old (Delta.from_configs old new)) k =
      cfgLookup new k := by
  rw [apply_lookup, lastVal_additions old new k h2, lastVal_updates old new k h2]
  cases hnew : cfgLookup new k with
  | none =>
    cases hold : cfgLookup old k with
    | none =>
      have hnd : k ∉ (Delta.from_configs old new).deletions := by
        intro hc
        obtain ⟨hmem, _⟩ := (mem_deletions_iff old new k).mp hc
        rw [← cfgLookup_isSome_iff] at hmem
        rw [hold] at hmem
        cases hmem
      rw [if_neg hnd]
      simp [hold, hnew, orElseO]
    | some v0 =>
      have hd : k ∈ (Delta.from_configs old new).deletions :=
        (mem_deletions_iff old new k).mpr
          ⟨(cfgLookup_isSome_iff old k).mp (by simp [hold]), hnew⟩
      rw [if_pos hd]
      simp [hold, hnew, orElseO]
  | some v =>
    cases hold : cfgLookup old k with
    | none =>
      simp [hold, hnew, orElseO]
    | some v0 =>
      by_cases hv : v0 = v
      · have hnd : k ∉ (Delta.from_configs old new).deletions := by
          intro hc
          obtain ⟨_, hnone⟩ := (mem_deletions_iff old new k).mp hc
          rw [hnew] at hnone
          cases hnone
        rw [if_neg hnd]
        simp [hold, hnew, hv, orElseO]
      · simp [hold, hnew, hv, orElseO]

end DeltaLemmas

section XmlLemmas

theorem lookupClass_isSome_iff (classes : List (String × ClassElement)) (k : String) :
    (lookupClass classes k).isSome ↔ k ∈ classNames classes := by
  unfold lookupClass classNames
  cases hf : classes.find? (fun kv => kv.1 = k) with
  | none =>
    have hall := List.find?_eq_none.mp hf
    simp only [Option.map_none', Option.isSome_none, Bool.false_eq_true, false_iff]
    intro hmem
    obtain ⟨kv, hkv, hfst⟩ := List.mem_map.mp hmem
    exact hall kv hkv (by simp [hfst])
  | some kv =>
    have hp : kv.1 = k := by simpa using List.find?_some hf
    have hmem := List.mem_of_find?_eq_some hf
    simp only [Option.map_some', Option.isSome_some, true_iff]
    exact hp ▸ List.mem_map_of_mem Prod.fst hmem

theorem lookupClass_mem (classes : List (String × ClassElement)) (k : String)
    (ce : ClassElement) (h : lookupClass classes k = some ce) : (k, ce) ∈ classes := by
  unfold lookupClass at h
  obtain ⟨kv, hfind, hsnd⟩ := Option.map_eq_some'.mp h
  have hmem := List.mem_of_find?_eq_some hfind
  have hp := List.find?_some hfind
  have hfst : kv.1 = k := by simpa using hp
  have : kv = (k, ce) := by
    obtain ⟨a, b⟩ := kv
    simp only at hfst hsnd
    rw [hfst, hsnd]
  exact this ▸ hmem

theorem classTagsList_append (l1 l2 : List XmlTree) :
    classTagsList (l1 ++ l2) = classTagsList l1 ++ classTagsList l2 := by
  induction l1 with
  | nil => rfl
  | cons t l1 ih => simp [classTagsList, ih]

theorem classTagsList_attrs (attrs : List (String × String)) :
    classTagsList (attrsToXml attrs) = [] := by
  induction attrs with
  | nil => rfl
  | cons kv l ih =>
    show classTagsList (XmlTree.elem kv.1 (some kv.2) [] :: attrsToXml l) = []
    rw [classTagsList, classTags, classTagsList]
    simpa using ih

theorem classTags_sub_list {t : XmlTree} {ts : List XmlTree} (h : t ∈ ts) :
    ∀ n, n ∈ classTags t → n ∈ classTagsList ts := by
  induction ts with
  | nil => cases h
  | cons t' ts ih =>
    intro n hn
    rw [classTagsList, List.mem_append]
    rcases List.mem_cons.mp h with heq | hmem
    · exact Or.inl (heq ▸ hn)
    · exact Or.inr (ih hmem n hn)

theorem mem_classTags_of_children {n : String} {tag : String} {txt : Option String}
    {ch : List XmlTree} (h : n ∈ classTagsList ch) :
    n ∈ classTags (XmlTree.elem tag txt ch) := by
  cases txt with
  | none => rw [classTags]; exact List.mem_cons_of_mem _ h
  | some s => rw [classTags]; exact h

theorem classTags_subset_of_subtree {c t : XmlTree} (hsub : Subtree c t) :
    ∀ n, n ∈ classTags c → n ∈ classTags t := by
  induction hsub with
  | refl t => exact fun n h => h
  | child hparent hmem ih =>
    intro n hn
    exact ih n (mem_classTags_of_children (classTags_sub_list hmem n hn))

theorem addNestedList_extract (classes : List (String × ClassElement))
    (descend : String → Except BuildError (List XmlTree))
    (rest : List Aggregation) (tgt : String) (ts : List XmlTree)
    (hok : addNestedList classes descend rest tgt = .ok ts)
    (a : Aggregation) (ha : a ∈ rest) (hat : a.target = tgt) :
    ∃ ce sub, lookupClass classes a.source = some ce ∧
      descend ce.name = .ok sub ∧
      XmlTree.elem ce.name none (attrsToXml ce.attributes ++ sub) ∈ ts := by
  induction rest generalizing ts with
  | nil => cases ha
  | cons b rest ih =>
    by_cases hbt : b.target = tgt
    · rw [addNestedList, if_pos hbt] at hok
      cases hlb : lookupClass classes b.source with
      | none => rw [hlb] at hok; cases hok
      | some ce =>
        rw [hlb] at hok
        dsimp only at hok
        cases hd : descend ce.name with
        | error e => rw [hd] at hok; cases hok
        | ok sub =>
          rw [hd] at hok
          dsimp only at hok
          cases hr : addNestedList classes descend rest tgt with
          | error e => rw [hr] at hok; cases hok
          | ok restTs =>
            rw [hr] at hok
            dsimp only at hok
            cases hok
            rcases List.mem_cons.mp ha with heq | hmem
            · subst heq
              exact ⟨ce, sub, hlb, hd, List.mem_cons_self _ _⟩
            · obtain ⟨ce', sub', h1, h2, h3⟩ := ih restTs hr hmem
              exact ⟨ce', sub', h1, h2, List.mem_cons_of_mem _ h3⟩
    · rw [addNestedList, if_neg hbt] at hok
      rcases List.mem_cons.mp ha with heq | hmem
      · exact absurd (heq ▸ hat) hbt
      · exact ih ts hok hmem

theorem addNestedList_ok (classes : List (String × ClassElement))
    (descend : String → Except BuildError (List XmlTree))
    (rest : List Aggregation) (tgt : String)
    (hsd : ∀ a ∈ rest, a.target = tgt →
      ∃ ce sub, lookupClass classes a.source = some ce ∧ descend ce.name = .ok sub) :
    ∃ ts, addNestedList classes descend rest tgt = .ok ts := by
  induction rest with
  | nil => exact ⟨[], rfl⟩
  | cons b rest ih =>
    by_cases hbt : b.target = tgt
    · obtain ⟨ce, sub, hlb, hd⟩ := hsd b (List.mem_cons_self _ _) hbt
      obtain ⟨restTs, hr⟩ := ih (fun a ha hat => hsd a (List.mem_cons_of_mem _ ha) hat)
      refine ⟨XmlTree.elem ce.name none (attrsToXml ce.attributes ++ sub) :: restTs, ?_⟩
      rw [addNestedList, if_pos hbt, hlb]
      dsimp only
      rw [hd]
      dsimp only
      rw [hr]
    · obtain ⟨ts, hr⟩ := ih (fun a ha hat => hsd a (List.mem_cons_of_mem _ ha) hat)
      refine ⟨ts, ?_⟩
      rw [addNestedList, if_neg hbt]
      exact hr

theorem addNested_ok (classes : List (String × ClassElement)) (aggs : List Aggregation)
    (hkeys : ∀ kv ∈ classes, kv.2.name = kv.1)
    (hsrc : ∀ a ∈ aggs, a.source ∈ classNames classes) :
    ∀ n tgt, BndF aggs n tgt → ∃ ts, addNested classes aggs (n + 1) tgt = .ok ts := by
  intro n
  induction n with
  | zero =>
    intro tgt hb
    apply addNestedList_ok
    intro a ha hat
    exact absurd hat (hb a ha)
  | succ m ih =>
    intro tgt hb
    apply addNestedList_ok
    intro a ha hat
    have hs : (lookupClass classes a.source).isSome :=
      (lookupClass_isSome_iff classes a.source).mpr (hsrc a ha)
    obtain ⟨ce, hce⟩ := Option.isSome_iff_exists.mp hs
    have hname : ce.name = a.source := hkeys _ (lookupClass_mem classes a.source ce hce)
    obtain ⟨sub, hsub⟩ := ih a.source (hb a ha hat)
    exact ⟨ce, sub, hce, by rw [hname]; exact hsub⟩

theorem addNestedList_sound (classes : List (String × ClassElement))
    (aggs : List Aggregation) (r : String)
    (descend : String → Except BuildError (List XmlTree))
    (hkeys : ∀ kv ∈ classes, kv.2.name = kv.1)
    (hdesc : ∀ s ts', Reaches aggs r s → descend s = .ok ts' →
      ∀ n, n ∈ classTagsList ts' → Reaches aggs r n) :
    ∀ rest, (∀ a ∈ rest, a ∈ aggs) → ∀ tgt ts, Reaches aggs r tgt →
      addNestedList classes descend rest tgt = .ok ts →
      ∀ n, n ∈ classTagsList ts → Reaches aggs r n := by
  intro rest
  induction rest with
  | nil =>
    intro _ tgt ts _ hok n hn
    cases hok
    cases hn
  | cons b rest ih =>
    intro hrest tgt ts htgt hok n hn
    by_cases hbt : b.target = tgt
    · rw [addNestedList, if_pos hbt] at hok
      cases hlb : lookupClass classes b.source with
      | none => rw [hlb] at hok; cases hok
      | some ce =>
        rw [hlb] at hok
        dsimp only at hok
        cases hd : descend ce.name with
        | error e => rw [hd] at hok; cases hok
        | ok sub =>
          rw [hd] at hok
          dsimp only at hok
          cases hr : addNestedList classes descend rest tgt with
          | error e => rw [hr] at hok; cases hok
          | ok restTs =>
            rw [hr] at hok
            dsimp only at hok
            cases hok
            have hname : ce.name = b.source :=
              hkeys _ (lookupClass_mem classes b.source ce hlb)
            have hreach : Reaches aggs r ce.name := by
              rw [hname]
              exact Reaches.step b htgt (hrest b (List.mem_cons_self _ _)) hbt
            rw [classTagsList, List.mem_append] at hn
            rcases hn with hn | hn
            · rw [classTags, List.mem_cons] at hn
              rcases hn with heq | hn
              · exact heq ▸ hreach
              · rw [classTagsList_append, List.mem_append, classTagsList_attrs] at hn
                rcases hn with hn | hn
                · cases hn
                · exact hdesc ce.name sub hreach hd n hn
            · exact ih (fun a ha => hrest a (List.mem_cons_of_mem _ ha)) tgt restTs htgt hr n hn
    · rw [addNestedList, if_neg hbt] at hok
      exact ih (fun a ha => hrest a (List.mem_cons_of_mem _ ha)) tgt ts htgt hok n hn

theorem addNested_sound (classes : List (String × ClassElement))
    (aggs : List Aggregation) (r : String)
    (hkeys : ∀ kv ∈ classes, kv.2.name = kv.1) :
    ∀ fuel tgt ts, Reaches aggs r tgt → addNested classes aggs fuel tgt = .ok ts →
      ∀ n, n ∈ classTagsList ts → Reaches aggs r n := by
  intro fuel
  induction fuel with
  | zero =>
    intro tgt ts _ hok
    cases hok
  | succ m ih =>
    intro tgt ts htgt hok
    exact addNestedList_sound classes aggs r (addNested classes aggs m) hkeys
      (fun s ts' hs hok' => ih s ts' hs hok') aggs (fun a ha => ha) tgt ts htgt hok

theorem reaches_occurs (classes : List (String × ClassElement))
    (aggs : List Aggregation) (r : String) (t0 : XmlTree)
    (hkeys : ∀ kv ∈ classes, kv.2.name = kv.1)
    (hroot : ∃ pre sub fuel, t0 = XmlTree.elem r none (pre ++ sub) ∧
      addNested classes aggs fuel r = .ok sub) :
    ∀ x, Reaches aggs r x →
      ∃ pre ch sub fuel, Subtree (XmlTree.elem x none ch) t0 ∧ ch = pre ++ sub ∧
        addNested classes aggs fuel x = .ok sub := by
  intro x hx
  induction hx with
  | root =>
    obtain ⟨pre, sub, fuel, ht0, hok⟩ := hroot
    exact ⟨pre, pre ++ sub, sub, fuel, by rw [ht0]; exact Subtree.refl _, rfl, hok⟩
  | step a hre hmem hatgt ih =>
    obtain ⟨pre, ch, sub, fuel, hsub, hch, hok⟩ := ih
    cases fuel with
    | zero => cases hok
    | succ m =>
      obtain ⟨ce, sub', hlc, hd, hmem'⟩ :=
        addNestedList_extract classes (addNested classes aggs m) aggs _ sub hok a hmem hatgt
      have hname : ce.name = a.source :=
        hkeys _ (lookupClass_mem classes a.source ce hlc)
      refine ⟨attrsToXml ce.attributes, _, sub', m, ?_, rfl, ?_⟩
      · have hmemch : XmlTree.elem a.source none (attrsToXml ce.attributes ++ sub') ∈ ch := by
          rw [hch]
          exact List.mem_append_right _ (hname ▸ hmem')
        exact Subtree.child hsub hmemch
      · exact hname ▸ hd

/-- The recursion-depth bound used to run the tree build to completion on
acyclic models: the number of distinct aggregation sources, plus one. -/
def fuelBound (aggs : List Aggregation) : Nat :=
  (aggs.map (fun a => a.source)).dedup.length + 1

theorem echain_nodup (aggs : List Aggregation) (hacyc : Acyclic aggs) :
    ∀ (l : List String) (x : String), EChain aggs x l → l.Nodup := by
  intro l
  induction l with
  | nil => exact fun x _ => List.nodup_nil
  | cons s l ih =>
    intro x hc
    obtain ⟨hedge, hrest⟩ := hc
    exact List.nodup_cons.mpr ⟨hacyc s l hrest, ih s hrest⟩

theorem echain_mem_sources (aggs : List Aggregation) :
    ∀ (l : List String) (x : String), EChain aggs x l →
      ∀ s ∈ l, s ∈ aggs.map (fun a => a.source) := by
  intro l
  induction l with
  | nil => intro x _ s hs; cases hs
  | cons s0 l ih =>
    intro x hc s hs
    obtain ⟨⟨a, hmem, hsrc, _⟩, hrest⟩ := hc
    rcases List.mem_cons.mp hs with heq | hmem'
    · exact heq ▸ hsrc ▸ List.mem_map_of_mem _ hmem
    · exact ih s0 hrest s hmem'

theorem echain_length_le (aggs : List Aggregation) (hacyc : Acyclic aggs)
    (x : String) (l : List String) (hc : EChain aggs x l) :
    l.length ≤ (aggs.map (fun a => a.source)).dedup.length := by
  have hnd := echain_nodup aggs hacyc l x hc
  have hmem := echain_mem_sources aggs l x hc
  calc l.length = l.toFinset.card := (List.toFinset_card_of_nodup hnd).symm
    _ ≤ (aggs.map (fun a => a.source)).toFinset.card := by
        apply Finset.card_le_card
        intro s hs
        exact List.mem_toFinset.mpr (hmem s (List.mem_toFinset.mp hs))
    _ = (aggs.map (fun a => a.source)).dedup.length := List.card_toFinset _

theorem bndF_of_chains (aggs : List Aggregation) :
    ∀ (n : Nat) (tgt : String), (∀ l, EChain aggs tgt l → l.length ≤ n) →
      BndF aggs n tgt := by
  intro n
  induction n with
  | zero =>
    intro tgt h a ha hat
    have hc : EChain aggs tgt [a.source] := ⟨⟨a, ha, rfl, hat⟩, trivial⟩
    simpa using h [a.source] hc
  | succ m ih =>
    intro tgt h a ha hat
    apply ih
    intro l hc
    have hc' : EChain aggs tgt (a.source :: l) := ⟨⟨a, ha, rfl, hat⟩, hc⟩
    have := h (a.source :: l) hc'
    simpa using this

theorem bndF_of_acyclic (aggs : List Aggregation) (hacyc : Acyclic aggs)
    (tgt : String) :
    BndF aggs ((aggs.map (fun a => a.source)).dedup.length) tgt :=
  bndF_of_chains aggs _ tgt (fun l hc => echain_length_le aggs hacyc tgt l hc)

theorem echain_rank_lt (aggs : List Aggregation) (rank : String → Nat)
    (h : ∀ a ∈ aggs, rank a.source < rank a.target) :
    ∀ (l : List String) (x : String), EChain aggs x l →
      ∀ s ∈ l, rank s < rank x := by
  intro l
  induction l with
  | nil => intro x _ s hs; cases hs
  | cons s0 l ih =>
    intro x hc s hs
    obtain ⟨⟨a, hmem, hasrc, hatgt⟩, hrest⟩ := hc
    have h0 : rank s0 < rank x := hasrc ▸ hatgt ▸ h a hmem
    rcases List.mem_cons.mp hs with heq | hmem'
    · exact heq ▸ h0
    · exact lt_trans (ih s0 hrest s hmem') h0

theorem acyclic_of_rank (aggs : List Aggregation) (rank : String → Nat)
    (h : ∀ a ∈ aggs, rank a.source < rank a.target) : Acyclic aggs :=
  fun x l hc hxl =>
    absurd (echain_rank_lt aggs rank h l x hc x hxl) (lt_irrefl _)

theorem reaches_nil (r x : String) (h : Reaches [] r x) : x = r := by
  induction h with
  | root => rfl
  | step a _ hmem _ => cases hmem

theorem reaches_run (classes : List (String × ClassElement))
    (aggs : List Aggregation) (r : String)
    (hkeys : ∀ kv ∈ classes, kv.2.name = kv.1)
    (fuel0 : Nat) (sub0 : List XmlTree)
    (hok : addNested classes aggs fuel0 r = .ok sub0) :
    ∀ x, Reaches aggs r x → ∃ fuel ts, addNested classes aggs fuel x = .ok ts := by
  intro x hx
  induction hx with
  | root => exact ⟨fuel0, sub0, hok⟩
  | step a hre hmem hatgt ih =>
    obtain ⟨fuel, ts, hts⟩ := ih
    cases fuel with
    | zero => cases hts
    | succ m =>
      obtain ⟨ce, sub, hlc, hd, _⟩ :=
        addNestedList_extract classes (addNested classes aggs m) aggs _ ts hts a hmem hatgt
      have hname : ce.name = a.source := hkeys _ (lookupClass_mem classes a.source ce hlc)
      exact ⟨m, sub, hname ▸ hd⟩

theorem buildXML_ok_tags (classes : List (String × ClassElement))
    (aggs : List Aggregation)
    (hkeys : ∀ kv ∈ classes, kv.2.name = kv.1)
    (hacyc : Acyclic aggs)
    (hsrc : ∀ a ∈ aggs, a.source ∈ classNames classes)
    (rkv : String × ClassElement)
    (hfind : classes.find? (fun kv => kv.2.is_root) = some rkv) :
    ∃ t, buildXML (fuelBound aggs) classes aggs = .ok t ∧
      ∀ n, n ∈ classTags t ↔ Reaches aggs rkv.2.name n := by
  obtain ⟨sub, hok⟩ := addNested_ok classes aggs hkeys hsrc
    ((aggs.map (fun a => a.source)).dedup.length) rkv.2.name
    (bndF_of_acyclic aggs hacyc rkv.2.name)
  refine ⟨XmlTree.elem rkv.2.name none (attrsToXml rkv.2.attributes ++ sub), ?_, ?_⟩
  · unfold buildXML
    rw [hfind]
    dsimp only
    rw [show fuelBound aggs = (aggs.map (fun a => a.source)).dedup.length + 1 from rfl]
    rw [hok]
  · intro n
    constructor
    · intro hn
      rw [classTags] at hn
      rcases List.mem_cons.mp hn with heq | hn
      · exact heq ▸ Reaches.root
      · rw [classTagsList_append, List.mem_append, classTagsList_attrs] at hn
        rcases hn with hn | hn
        · cases hn
        · exact addNested_sound classes aggs rkv.2.name hkeys _ rkv.2.name sub
            Reaches.root hok n hn
    · intro hr
      obtain ⟨pre, ch, sub', fuel', hsubtree, hch, _⟩ :=
        reaches_occurs classes aggs rkv.2.name _ hkeys
          ⟨attrsToXml rkv.2.attributes, sub, _, rfl, hok⟩ n hr
      apply classTags_subset_of_subtree hsubtree
      rw [classTags]
      exact List.mem_cons_self _ _

end XmlLemmas

section JsonLemmas

variable {β : Type}

theorem assocFind_eq (m : List (String × β)) (k : String) :
    assocFind m k = cfgLookup m k := by
  induction m with
  | nil => rfl
  | cons kv rest ih =>
    obtain ⟨k0, v0⟩ := kv
    by_cases h : k0 = k
    · rw [cfgLookup_cons, if_pos h]
      unfold assocFind
      rw [List.find?_cons_of_pos _ (by simp [h])]
      rfl
    · rw [cfgLookup_cons, if_neg h]
      unfold assocFind at ih ⊢
      rw [List.find?_cons_of_neg _ (by simp [h])]
      exact ih

theorem assocUpdate_eq_dictInsert (m : List (String × β)) (k : String) (v : β) :
    assocUpdate m k v = dictInsert m k v := by
  unfold assocUpdate dictInsert
  rw [assocFind_eq]

theorem assocFind_assocUpdate (m : List (String × β)) (k : String) (v : β)
    (k' : String) :
    assocFind (assocUpdate m k v) k' = if k = k' then some v else assocFind m k' := by
  rw [assocFind_eq, assocUpdate_eq_dictInsert, cfgLookup_dictInsert, assocFind_eq]

theorem assocFind_addNestedEntry_self (m : List (String × List String))
    (t s : String) :
    assocFind (addNestedEntry m t s) t =
      match assocFind m t with
      | some l => some (l ++ [s])
      | none => some [s] := by
  unfold addNestedEntry
  cases h : assocFind m t with
  | some l =>
    rw [assocFind_eq, cfgLookup_map_replace_self]
    rw [assocFind_eq] at h
    rw [if_pos (by simp [h])]
  | none =>
    rw [assocFind_eq, cfgLookup_append]
    rw [assocFind_eq] at h
    rw [h, orElseO_none_left, cfgLookup_cons, if_pos rfl]

theorem assocFind_addNestedEntry_other (m : List (String × List String))
    (t s t' : String) (h : t ≠ t') :
    assocFind (addNestedEntry m t s) t' = assocFind m t' := by
  unfold addNestedEntry
  cases hm : assocFind m t with
  | some l =>
    rw [assocFind_eq, cfgLookup_map_replace_ne _ _ _ _ h, assocFind_eq]
  | none =>
    rw [assocFind_eq, cfgLookup_append, cfgLookup_cons, if_neg h, cfgLookup_nil,
      orElseO_none_right, assocFind_eq]

theorem getMultiplicities_isSome_iff (aggs : List Aggregation) :
    ∀ m, (getMultiplicities m aggs).isSome ↔
      ∀ a ∈ aggs, (parseMultiplicity a.sourceMultiplicity).isSome := by
  induction aggs with
  | nil => intro m; simp [getMultiplicities]
  | cons a rest ih =>
    intro m
    rw [getMultiplicities]
    cases hp : parseMultiplicity a.sourceMultiplicity with
    | none =>
      simp only [Option.isSome_none, Bool.false_eq_true, false_iff]
      intro hall
      have := hall a (List.mem_cons_self _ _)
      rw [hp] at this
      cases this
    | some p =>
      rw [ih]
      constructor
      · intro hall b hb
        rcases List.mem_cons.mp hb with heq | hmem
        · rw [heq, hp]; rfl
        · exact hall b hmem
      · intro hall b hb
        exact hall b (List.mem_cons_of_mem _ hb)

theorem getMultiplicities_char (aggs : List Aggregation) :
    ∀ m m', getMultiplicities m aggs = some m' → ∀ src,
      assocFind m' src =
        match (aggs.filter (fun a => a.source = src)).getLast? with
        | some a => parseMultiplicity a.sourceMultiplicity
        | none => assocFind m src := by
  induction aggs with
  | nil =>
    intro m m' hok src
    cases hok
    rfl
  | cons a rest ih =>
    intro m m' hok src
    rw [getMultiplicities] at hok
    cases hp : parseMultiplicity a.sourceMultiplicity with
    | none => rw [hp] at hok; cases hok
    | some p =>
      rw [hp] at hok
      dsimp only at hok
      have hrec := ih (assocUpdate m a.source p) m' hok src
      rw [List.filter_cons]
      by_cases hsrc : a.source = src
      · rw [if_pos (by simp [hsrc])]
        cases hlast : (rest.filter (fun b => b.source = src)).getLast? with
        | some b =>
          cases hflt : rest.filter (fun b => b.source = src) with
          | nil => rw [hflt] at hlast; cases hlast
          | cons y l' =>
            rw [hflt] at hrec hlast
            rw [List.getLast?_cons_cons, hlast]
            rw [hlast] at hrec
            exact hrec
        | none =>
          have hnil : rest.filter (fun b => b.source = src) = [] :=
            List.getLast?_eq_none_iff.mp hlast
          rw [hnil] at hrec
          rw [hnil]
          rw [hrec, assocFind_assocUpdate, if_pos hsrc]
          simp [hp]
      · rw [if_neg (by simp [hsrc])]
        cases hlast : (rest.filter (fun b => b.source = src)).getLast? with
        | some b =>
          rw [hlast] at hrec
          exact hrec
        | none =>
          rw [hlast] at hrec
          rw [hrec, assocFind_assocUpdate, if_neg hsrc]

theorem getNestedClasses_char (aggs : List Aggregation) :
    ∀ m tgt, assocFind (getNestedClasses m aggs) tgt =
      match assocFind m tgt with
      | some l =>
        some (l ++ (aggs.filter (fun a => a.target = tgt)).map (fun a => a.source))
      | none =>
        match aggs.filter (fun a => a.target = tgt) with
        | [] => none
        | fl => some (fl.map (fun a => a.source)) := by
  induction aggs with
  | nil =>
    intro m tgt
    show assocFind m tgt = _
    cases h : assocFind m tgt <;> simp [h, List.filter_nil]
  | cons a rest ih =>
    intro m tgt
    rw [getNestedClasses]
    have hrec := ih (addNestedEntry m a.target a.source) tgt
    rw [List.filter_cons]
    by_cases hat : a.target = tgt
    · subst hat
      rw [if_pos (by simp)]
      rw [hrec, assocFind_addNestedEntry_self]
      cases hm : assocFind m a.target with
      | some l => simp
      | none => simp
    · rw [if_neg (by simp [hat])]
      rw [hrec, assocFind_addNestedEntry_other m a.target a.source tgt hat]

theorem buildClassDict_expected (aggs : List Aggregation)
    (kv : String × ClassElement) (mults : List (String × (String × String)))
    (hm : getMultiplicities [] aggs = some mults) :
    buildClassDict kv.1 kv.2 (getNestedClasses [] aggs) mults =
      expectedDescriptor aggs kv := by
  unfold buildClassDict expectedDescriptor
  have hmin : assocFind mults kv.1 =
      match (aggs.filter (fun a => a.source = kv.1)).getLast? with
      | some a => parseMultiplicity a.sourceMultiplicity
      | none => none := by
    rw [getMultiplicities_char aggs [] mults hm kv.1]
    cases (aggs.filter (fun a => a.source = kv.1)).getLast? <;> rfl
  have hnest : (match assocFind (getNestedClasses [] aggs) kv.1 with
      | some srcs => srcs.map (fun s => Param.mk s "class")
      | none => ([] : List Param)) =
      (aggs.filter (fun a => a.target = kv.1)).map (fun a => Param.mk a.source "class") := by
    rw [getNestedClasses_char aggs [] kv.1]
    rw [show assocFind ([] : List (String × List String)) kv.1 = none from rfl]
    cases hflt : aggs.filter (fun a => a.target = kv.1) with
    | nil => rfl
    | cons b fl =>
      show ((b :: fl).map (fun a => a.source)).map (fun s => Param.mk s "class") = _
      rw [List.map_map]
      rfl
  rw [ClassDict.mk.injEq]
  exact ⟨rfl, rfl, rfl, hmin, by rw [hnest]⟩

theorem buildJSON_char (classes : List (String × ClassElement))
    (aggs : List Aggregation) (ds : List ClassDict)
    (h : buildJSON classes aggs = some ds) :
    ds = classes.map (expectedDescriptor aggs) := by
  unfold buildJSON at h
  cases hm : getMultiplicities [] aggs with
  | none => rw [hm] at h; cases h
  | some mults =>
    rw [hm] at h
    dsimp only at h
    cases h
    apply List.map_congr_left
    intro kv _
    exact buildClassDict_expected aggs kv mults hm

theorem getLast?_of_ne_nil {γ : Type} (l : List γ) (h : l ≠ []) :
    ∃ b, l.getLast? = some b ∧ b ∈ l := by
  induction l with
  | nil => exact absurd rfl h
  | cons y l ih =>
    cases l with
    | nil => exact ⟨y, rfl, List.mem_cons_self _ _⟩
    | cons z l' =>
      obtain ⟨b, hb, hmem⟩ := ih (by simp)
      exact ⟨b, by rw [List.getLast?_cons_cons]; exact hb, List.mem_cons_of_mem _ hmem⟩

end JsonLemmas

section Claims

/-- C1: for every pair of configurations (flat string-keyed mappings with
no duplicate keys, values compared by deep equality), applying the
changeset produced by `Delta.from_configs` back onto the old configuration
with `ConfigPatcher.apply` yields exactly the new configuration as a
mapping: the two agree on lookup at every key. -/
theorem claim_C1_roundtrip {α : Type} [DecidableEq α] (old new : Config α)
    (h1 : NodupKeys old) (h2 : NodupKeys new) :
    ∀ k, cfgLookup (ConfigPatcher.apply old (Delta.from_configs old new)) k =
      cfgLookup new k :=
  fun k => roundtrip_lookup old new h2 k

/-- Witness for C1 at the spec scenario, old a-1 b-2 against new b-3 c-4,
checked at each of the four keys involved. -/
theorem claim_C1_roundtrip_witness :
    NodupKeys ([("a", 1), ("b", 2)] : Config Int) ∧
    NodupKeys ([("b", 3), ("c", 4)] : Config Int) ∧
    ∀ k, cfgLookup (ConfigPatcher.apply [("a", (1 : Int)), ("b", 2)]
      (Delta.from_configs [("a", 1), ("b", 2)] [("b", 3), ("c", 4)])) k =
      cfgLookup [("b", 3), ("c", 4)] k :=
  ⟨by unfold NodupKeys; decide, by unfold NodupKeys; decide,
    claim_C1_roundtrip [("a", 1), ("b", 2)] [("b", 3), ("c", 4)]
      (by unfold NodupKeys; decide) (by unfold NodupKeys; decide)⟩

/-- C4: the changeset of `Delta.from_configs` consists exactly of one
addition per key of the new config absent from the old one (in the new
config's order, with the new value), one update per key present in both
with non-equal values (in the new config's order, recording the old and
new value), and one deletion per key of the old config absent from the new
one (in the old config's order); equal values produce no entry. -/
theorem claim_C4_diff {α : Type} [DecidableEq α] (old new : Config α) :
    (Delta.from_configs old new).additions =
      (new.filter (fun kv => (cfgLookup old kv.1).isNone)).map (fun kv => ⟨kv.1, kv.2⟩) ∧
    (Delta.from_configs old new).updates = new.filterMap (updFun old) ∧
    (Delta.from_configs old new).deletions =
      (old.filter (fun kv => (cfgLookup new kv.1).isNone)).map Prod.fst :=
  ⟨additions_eq old new, updates_eq old new, deletions_eq old new⟩

/-- Witness for C4 at the spec scenario. -/
theorem claim_C4_diff_witness :
    (Delta.from_configs [("a", (1 : Int)), ("b", 2)] [("b", 3), ("c", 4)]).additions =
      (([("b", 3), ("c", 4)] : Config Int).filter
        (fun kv => (cfgLookup [("a", 1), ("b", 2)] kv.1).isNone)).map
        (fun kv => ⟨kv.1, kv.2⟩) ∧
    (Delta.from_configs [("a", (1 : Int)), ("b", 2)] [("b", 3), ("c", 4)]).updates =
      ([("b", 3), ("c", 4)] : Config Int).filterMap (updFun [("a", 1), ("b", 2)]) ∧
    (Delta.from_configs [("a", (1 : Int)), ("b", 2)] [("b", 3), ("c", 4)]).deletions =
      (([("a", 1), ("b", 2)] : Config Int).filter
        (fun kv => (cfgLookup [("b", 3), ("c", 4)] kv.1).isNone)).map Prod.fst :=
  claim_C4_diff [("a", 1), ("b", 2)] [("b", 3), ("c", 4)]

/-- C5: `ConfigPatcher.apply` is total and processes deletions first, then
updates, then additions, each phase applying its list left to right, so
that later writes win: the lookup of the result at any key is the last
addition for that key if any, else the last update for that key if any,
else nothing when the key is deleted, else the base value.  In particular
a deletion of a key absent from the base is a silent no-op. -/
theorem claim_C5_apply_order {α : Type} (base : Config α) (d : Delta α) (k : String) :
    cfgLookup (ConfigPatcher.apply base d) k =
      orElseO (lastVal (fun a => a.key) (fun a => a.value) d.additions k)
        (orElseO (lastVal (fun u => u.key) (fun u => u.toVal) d.updates k)
          (if k ∈ d.deletions then none else cfgLookup base k)) :=
  apply_lookup base d k

/-- Witness for C5 on a hand-constructed overlapping changeset: the key a
is deleted, updated and added, and the addition wins; the deletion of the
absent key z is a no-op. -/
theorem claim_C5_apply_order_witness :
    cfgLookup (ConfigPatcher.apply [("a", (1 : Int))]
      ⟨[⟨"a", 5⟩], ["a", "z"], [⟨"a", 0, 7⟩]⟩) "a" =
      orElseO (lastVal (fun a => a.key) (fun a => a.value)
          ([⟨"a", 5⟩] : List (AddEntry Int)) "a")
        (orElseO (lastVal (fun u => u.key) (fun u => u.toVal)
            ([⟨"a", 0, 7⟩] : List (UpdEntry Int)) "a")
          (if "a" ∈ ["a", "z"] then none else cfgLookup [("a", (1 : Int))] "a")) :=
  claim_C5_apply_order [("a", 1)] ⟨[⟨"a", 5⟩], ["a", "z"], [⟨"a", 0, 7⟩]⟩ "a"

/-- A one-class model whose root class A aggregates itself: the smallest
model with an aggregation cycle reachable from the root. -/
def cycClasses : List (String × ClassElement) := [("A", ⟨"A", true, "", []⟩)]

/-- The self-loop aggregation of the cyclic model. -/
def cycAggs : List Aggregation := [⟨"A", "A", "1", "1"⟩]

/-- C2 (failing input): on a model with an aggregation cycle reachable
from the root, `BuilderXML.build` never terminates: at every recursion
depth the build still runs out of fuel, and no `CyclicAggregationError`
(or any cycle check at all) exists in the code. -/
theorem claim_C2_cycle_diverges :
    ∀ fuel, buildXML fuel cycClasses cycAggs = .error .fuelExhausted := by
  have hnest : ∀ fuel, addNested cycClasses cycAggs fuel "A" = .error .fuelExhausted := by
    intro fuel
    induction fuel with
    | zero => rfl
    | succ m ih =>
      have hstep : addNested cycClasses cycAggs (m + 1) "A" =
          match addNested cycClasses cycAggs m "A" with
          | .error e => .error e
          | .ok sub =>
            match addNestedList cycClasses (addNested cycClasses cycAggs m) [] "A" with
            | .error e => .error e
            | .ok restTs => .ok (XmlTree.elem "A" none ([] ++ sub) :: restTs) := rfl
      rw [hstep, ih]
  intro fuel
  have hb : buildXML fuel cycClasses cycAggs =
      match addNested cycClasses cycAggs fuel "A" with
      | .error e => .error e
      | .ok sub => .ok (XmlTree.elem "A" none ([] ++ sub)) := rfl
  rw [hb, hnest fuel]

/-- C8: if no class of the model is marked as root, `BuilderXML.build`
fails with the missing-root error (at any recursion budget, for any
aggregation list). -/
theorem claim_C8_noRoot (classes : List (String × ClassElement))
    (aggs : List Aggregation) (fuel : Nat)
    (h : ∀ kv ∈ classes, kv.2.is_root = false) :
    buildXML fuel classes aggs = .error .noRoot := by
  unfold buildXML
  have hfind : classes.find? (fun kv => kv.2.is_root) = none :=
    List.find?_eq_none.mpr (fun kv hkv => by simp [h kv hkv])
  rw [hfind]

/-- Witness for C8 on a one-class model with no root. -/
theorem claim_C8_noRoot_witness :
    (∀ kv ∈ [("A", ClassElement.mk "A" false "" [])], kv.2.is_root = false) ∧
    buildXML 3 [("A", ClassElement.mk "A" false "" [])] [] = .error .noRoot :=
  ⟨by decide, claim_C8_noRoot [("A", ClassElement.mk "A" false "" [])] [] 3 (by decide)⟩

/-- A model with one root class A and a single aggregation whose target B
names no class of the repository. -/
def c9Classes : List (String × ClassElement) := [("A", ⟨"A", true, "", []⟩)]

/-- The dangling aggregation of the unresolved-target model. -/
def c9Aggs : List Aggregation := [⟨"A", "B", "1", "1"⟩]

/-- C9 (counterexample): a model containing an aggregation whose target
names a class absent from the repository compiles successfully — the
dangling edge is silently ignored, and no error of any kind is raised. -/
theorem claim_C9_counterexample :
    (∃ a ∈ c9Aggs, a.target ∉ classNames c9Classes) ∧
    buildXML 3 c9Classes c9Aggs = .ok (XmlTree.elem "A" none []) :=
  ⟨⟨⟨"A", "B", "1", "1"⟩, by decide, by decide⟩, rfl⟩

/-- C9 (amended): only an aggregation whose target is actually reached by
the traversal from the root is checked at all: whenever the build
produces output, every aggregation whose target is reachable from the
root names an existing source class (so a reached missing source makes
the build fail, with a missing-key error rather than a dedicated
`UnresolvedReferenceError`, while unreached aggregations — in particular
those naming a non-existent target — are ignored). -/
theorem claim_C9_amended (fuel : Nat) (classes : List (String × ClassElement))
    (aggs : List Aggregation) (t : XmlTree) (rkv : String × ClassElement)
    (hkeys : ∀ kv ∈ classes, kv.2.name = kv.1)
    (hfind : classes.find? (fun kv => kv.2.is_root) = some rkv)
    (hok : buildXML fuel classes aggs = .ok t) :
    ∀ a ∈ aggs, Reaches aggs rkv.2.name a.target → a.source ∈ classNames classes := by
  unfold buildXML at hok
  rw [hfind] at hok
  dsimp only at hok
  cases hrun : addNested classes aggs fuel rkv.2.name with
  | error e => rw [hrun] at hok; cases hok
  | ok sub =>
    intro a ha hre
    obtain ⟨fuel', ts, hts⟩ :=
      reaches_run classes aggs rkv.2.name hkeys fuel sub hrun a.target hre
    cases fuel' with
    | zero => cases hts
    | succ m =>
      obtain ⟨ce, sub', hlc, _, _⟩ :=
        addNestedList_extract classes (addNested classes aggs m) aggs _ ts hts a ha rfl
      exact (lookupClass_isSome_iff classes a.source).mp (by rw [hlc]; rfl)

/-- Witness for C9 (amended) on the valid two-class model, root A with
nested class B: the aggregation nesting B inside A has a reached target,
so its source B is forced to be a repository class. -/
theorem claim_C9_amended_witness :
    "B" ∈ classNames
      [("A", ClassElement.mk "A" true "" [("x", "int")]),
       ("B", ClassElement.mk "B" false "" [("y", "string")])] :=
  claim_C9_amended 5
    [("A", ClassElement.mk "A" true "" [("x", "int")]),
     ("B", ClassElement.mk "B" false "" [("y", "string")])]
    [Aggregation.mk "B" "A" "0..5" "1"]
    (XmlTree.elem "A" none [XmlTree.elem "x" (some "int") [],
      XmlTree.elem "B" none [XmlTree.elem "y" (some "string") []]])
    ("A", ClassElement.mk "A" true "" [("x", "int")])
    (by decide) rfl rfl
    (Aggregation.mk "B" "A" "0..5" "1") (List.mem_cons_self _ _) Reaches.root

/-- A valid model with root class A and a second class B that no
aggregation connects to anything: B is unreachable from the root. -/
def c3Classes : List (String × ClassElement) :=
  [("A", ⟨"A", true, "", []⟩), ("B", ⟨"B", false, "", []⟩)]

/-- C3 (counterexample): the JSON renderer emits an entry for class B even
though B is unreachable from the root A — it iterates the whole
repository and performs no reachability check, contradicting the claim
that unreachable classes produce no entry. -/
theorem claim_C3_counterexample :
    c3Classes.find? (fun kv => kv.2.is_root) = some ("A", ⟨"A", true, "", []⟩) ∧
    ¬ Reaches [] "A" "B" ∧
    ∃ ds, buildJSON c3Classes [] = some ds ∧ ∃ d ∈ ds, d.className = "B" :=
  ⟨rfl,
   fun h => absurd (reaches_nil "A" "B" h) (by decide),
   ⟨[⟨"A", "", true, none, []⟩, ⟨"B", "", false, none, []⟩], rfl,
    ⟨⟨"B", "", false, none, []⟩, by decide, rfl⟩⟩⟩

/-- C3 (amended): for every valid model — class dict keys matching class
names, exactly one root, acyclic aggregations, aggregation endpoints
naming existing classes, well-formed multiplicity strings — the XML
renderer terminates (with fuel bounded by the number of distinct
aggregation sources plus one) and its tree has a class element exactly
for the class names reachable from the root along aggregation edges,
while the JSON renderer terminates and emits one entry per repository
class in repository order, regardless of reachability. -/
theorem claim_C3_amended (classes : List (String × ClassElement))
    (aggs : List Aggregation)
    (hkeys : ∀ kv ∈ classes, kv.2.name = kv.1)
    (hroot : classes.countP (fun kv => kv.2.is_root) = 1)
    (hacyc : Acyclic aggs)
    (hsrc : ∀ a ∈ aggs, a.source ∈ classNames classes)
    (htgt : ∀ a ∈ aggs, a.target ∈ classNames classes)
    (hmult : ∀ a ∈ aggs, (parseMultiplicity a.sourceMultiplicity).isSome) :
    ∃ rkv t ds, classes.find? (fun kv => kv.2.is_root) = some rkv ∧
      buildXML (fuelBound aggs) classes aggs = .ok t ∧
      (∀ n, n ∈ classTags t ↔ Reaches aggs rkv.2.name n) ∧
      buildJSON classes aggs = some ds ∧
      ds.map (fun d => d.className) = classNames classes := by
  have hpos : 0 < classes.countP (fun kv => kv.2.is_root) := by
    rw [hroot]
    exact Nat.zero_lt_one
  rw [List.countP_pos_iff] at hpos
  have hfind : (classes.find? (fun kv => kv.2.is_root)).isSome :=
    List.find?_isSome.mpr hpos
  obtain ⟨rkv, hfind⟩ := Option.isSome_iff_exists.mp hfind
  obtain ⟨t, hxml, htags⟩ := buildXML_ok_tags classes aggs hkeys hacyc hsrc rkv hfind
  have hms : (getMultiplicities [] aggs).isSome :=
    (getMultiplicities_isSome_iff aggs []).mpr hmult
  obtain ⟨mults, hm⟩ := Option.isSome_iff_exists.mp hms
  refine ⟨rkv, t,
    classes.map (fun kv => buildClassDict kv.1 kv.2 (getNestedClasses [] aggs) mults),
    hfind, hxml, htags, ?_, ?_⟩
  · unfold buildJSON
    rw [hm]
  · rw [List.map_map]
    rfl

/-- The valid two-class model used as a witness: root A with an attribute
and one nested class B, with multiplicity zero to five. -/
def exClasses : List (String × ClassElement) :=
  [("A", ⟨"A", true, "", [("x", "int")]⟩), ("B", ⟨"B", false, "", [("y", "string")]⟩)]

/-- The one aggregation of the witness model, nesting B inside A. -/
def exAggs : List Aggregation := [⟨"B", "A", "0..5", "1"⟩]

/-- Witness for C3 (amended) on the valid two-class model. -/
theorem claim_C3_amended_witness :
    ∃ rkv t ds, exClasses.find? (fun kv => kv.2.is_root) = some rkv ∧
      buildXML (fuelBound exAggs) exClasses exAggs = .ok t ∧
      (∀ n, n ∈ classTags t ↔ Reaches exAggs rkv.2.name n) ∧
      buildJSON exClasses exAggs = some ds ∧
      ds.map (fun d => d.className) = classNames exClasses :=
  claim_C3_amended exClasses exAggs (by decide) (by decide)
    (acyclic_of_rank exAggs (fun n => if n = "A" then 1 else 0) (by decide))
    (by decide) (by decide) (by decide)

/-- C6: whenever the JSON renderer succeeds, its output is exactly one
descriptor per class, in repository iteration order, each carrying the
class name, documentation and root flag; min and max exactly when the
class name occurs as some aggregation's source (from the last such
aggregation); and the parameters list concatenates one name-and-type
entry per attribute in declared order with one class-typed entry per
aggregation targeting this class, in edge order (see
`expectedDescriptor`). -/
theorem claim_C6_descriptors (classes : List (String × ClassElement))
    (aggs : List Aggregation) (ds : List ClassDict)
    (h : buildJSON classes aggs = some ds) :
    ds = classes.map (expectedDescriptor aggs) :=
  buildJSON_char classes aggs ds h

/-- Witness for C6 on the two-class model: descriptor for A has the
attribute parameter followed by the class-typed parameter for B, and only
B (the only aggregation source) carries min and max. -/
theorem claim_C6_descriptors_witness :
    ([⟨"A", "", true, none, [⟨"x", "int"⟩, ⟨"B", "class"⟩]⟩,
      ⟨"B", "", false, some ("0", "5"), [⟨"y", "string"⟩]⟩] : List ClassDict) =
      exClasses.map (expectedDescriptor exAggs) :=
  claim_C6_descriptors exClasses exAggs
    [⟨"A", "", true, none, [⟨"x", "int"⟩, ⟨"B", "class"⟩]⟩,
     ⟨"B", "", false, some ("0", "5"), [⟨"y", "string"⟩]⟩] rfl

/-- C7: multiplicity strings parse by splitting at the two-dot separator
when present and duplicating the whole string otherwise, and when several
aggregations share a source the multiplicity table keeps the last one in
edge order (last write wins). -/
theorem claim_C7_multiplicities :
    parseMultiplicity "1" = some ("1", "1") ∧
    parseMultiplicity "0..*" = some ("0", "*") ∧
    parseMultiplicity "2..5" = some ("2", "5") ∧
    ∀ aggs m src, getMultiplicities [] aggs = some m →
      assocFind m src =
        match (aggs.filter (fun a => a.source = src)).getLast? with
        | some a => parseMultiplicity a.sourceMultiplicity
        | none => none := by
  refine ⟨by decide, by decide, by decide, ?_⟩
  intro aggs m src h
  rw [getMultiplicities_char aggs [] m h src]
  cases (aggs.filter (fun a => a.source = src)).getLast? <;> rfl

/-- Witness for C7 on two aggregations sharing the source B: the second
one (two to seven) overwrites the first (zero to five). -/
theorem claim_C7_multiplicities_witness :
    assocFind [("B", ("2", "7"))] "B" =
      match (([⟨"B", "A", "0..5", "1"⟩, ⟨"B", "C", "2..7", "1"⟩] :
          List Aggregation).filter (fun a => a.source = "B")).getLast? with
      | some a => parseMultiplicity a.sourceMultiplicity
      | none => none :=
  claim_C7_multiplicities.2.2.2
    [⟨"B", "A", "0..5", "1"⟩, ⟨"B", "C", "2..7", "1"⟩]
    [("B", ("2", "7"))] "B" rfl

/-- C10: the JSON renderer performs no existence check on aggregation
endpoints: for every repository whose multiplicity strings are
well-formed it returns a descriptor list, every aggregation (even one
whose source names no class) contributes a class-typed parameter to each
repository class named by its target, and the multiplicity table carries
an entry keyed by the aggregation's source name whether or not that name
is a class. -/
theorem claim_C10_json_total (classes : List (String × ClassElement))
    (aggs : List Aggregation)
    (hmult : ∀ a ∈ aggs, (parseMultiplicity a.sourceMultiplicity).isSome) :
    ∃ ds, buildJSON classes aggs = some ds ∧
      (∀ a ∈ aggs, ∀ kv ∈ classes, kv.1 = a.target →
        ∃ d ∈ ds, d.className = a.target ∧ Param.mk a.source "class" ∈ d.parameters) ∧
      (∀ a ∈ aggs, ∃ mm, getMultiplicities [] aggs = some mm ∧
        (assocFind mm a.source).isSome) := by
  have hms : (getMultiplicities [] aggs).isSome :=
    (getMultiplicities_isSome_iff aggs []).mpr hmult
  obtain ⟨mults, hm⟩ := Option.isSome_iff_exists.mp hms
  refine ⟨classes.map (fun kv => buildClassDict kv.1 kv.2 (getNestedClasses [] aggs) mults),
    by unfold buildJSON; rw [hm], ?_, ?_⟩
  · intro a ha kv hkv hkt
    refine ⟨buildClassDict kv.1 kv.2 (getNestedClasses [] aggs) mults,
      List.mem_map_of_mem _ hkv, hkt ▸ rfl, ?_⟩
    unfold buildClassDict
    apply List.mem_append_right
    have hmem : a ∈ aggs.filter (fun b => b.target = kv.1) :=
      List.mem_filter.mpr ⟨ha, by simp [hkt]⟩
    rw [getNestedClasses_char aggs [] kv.1]
    rw [show assocFind ([] : List (String × List String)) kv.1 = none from rfl]
    cases hflt : aggs.filter (fun b => b.target = kv.1) with
    | nil => rw [hflt] at hmem; cases hmem
    | cons b fl =>
      rw [hflt] at hmem
      show Param.mk a.source "class" ∈ ((b :: fl).map (fun x => x.source)).map
        (fun s => Param.mk s "class")
      exact List.mem_map_of_mem _ (List.mem_map_of_mem _ hmem)
  · intro a ha
    refine ⟨mults, hm, ?_⟩
    rw [getMultiplicities_char aggs [] mults hm a.source]
    have hmem : a ∈ aggs.filter (fun b => b.source = a.source) :=
      List.mem_filter.mpr ⟨ha, by simp⟩
    obtain ⟨b, hb, hbm⟩ := getLast?_of_ne_nil (aggs.filter (fun b => b.source = a.source))
      (fun hc => by rw [hc] at hmem; cases hmem)
    rw [hb]
    exact hmult b (List.mem_filter.mp hbm).1

/-- Witness for C10 on a model whose only aggregation names the
non-existent source class Ghost. -/
theorem claim_C10_json_total_witness :
    ∃ ds, buildJSON [("A", ClassElement.mk "A" true "" [])]
        [Aggregation.mk "Ghost" "A" "1" "1"] = some ds ∧
      (∀ a ∈ [Aggregation.mk "Ghost" "A" "1" "1"],
        ∀ kv ∈ [("A", ClassElement.mk "A" true "" [])], kv.1 = a.target →
          ∃ d ∈ ds, d.className = a.target ∧ Param.mk a.source "class" ∈ d.parameters) ∧
      (∀ a ∈ [Aggregation.mk "Ghost" "A" "1" "1"],
        ∃ mm, getMultiplicities [] [Aggregation.mk "Ghost" "A" "1" "1"] = some mm ∧
          (assocFind mm a.source).isSome) :=
  claim_C10_json_total [("A", ClassElement.mk "A" true "" [])]
    [Aggregation.mk "Ghost" "A" "1" "1"] (by decide)

end Claims

end Impulse
